import Mathlib

/-!
Verification of the workload-generation and execution engine of the
map-bench harness (src/src/perf_map.rs).

The Rust source is shallowly embedded:
- machine integers (usize, u64) are modelled as Nat; every operation that
  panics in Rust (out-of-bounds slice index, remainder by zero, unwrap of
  None, division by zero) is modelled as an Option returning none;
- the atomic allocation cursor of Keys is modelled as a plain Nat field,
  with alloc_n/random/reset acting on it by explicit state passing
  (the claims under study are about sequential call sequences);
- the thread-local RNG is modelled as an explicit stream of draws
  (a function from the draw index to a Nat);
- the collection under test is modelled as an abstract state S together
  with four boolean state-transforming operations (the CollectionHandle
  trait of the source).
-/

/-- Embeds enum Operation (perf_map.rs lines 122-129). -/
inductive Operation : Type
| read
| insert
| remove
| update
| upsert
deriving DecidableEq, Repr

/-- Embeds struct Mix (perf_map.rs lines 131-138): five operation weights. -/
structure Mix : Type where
  read : ℕ
  insert : ℕ
  remove : ℕ
  update : ℕ
  upsert : ℕ
deriving DecidableEq, Repr

/-- Embeds Mix::read_heavy (perf_map.rs lines 142-150). -/
def Mix.read_heavy : Mix :=
  { read := 95, insert := 2, update := 1, remove := 1, upsert := 1 }

/-- Embeds Mix::read_99 (perf_map.rs lines 152-160). -/
def Mix.read_99 : Mix :=
  { read := 99, insert := 1, update := 0, remove := 0, upsert := 0 }

/-- Embeds Mix::read_100 (perf_map.rs lines 163-171). -/
def Mix.read_100 : Mix :=
  { read := 100, insert := 0, update := 0, remove := 0, upsert := 0 }

/-- The list built by Mix::to_ops before the shuffle (perf_map.rs lines
175-180): each tag repeated its weight many times, in declaration order
Read, Insert, Remove, Update, Upsert. -/
def Mix.op_list (m : Mix) : List Operation :=
  List.replicate m.read Operation.read
    ++ List.replicate m.insert Operation.insert
    ++ List.replicate m.remove Operation.remove
    ++ List.replicate m.update Operation.update
    ++ List.replicate m.upsert Operation.upsert

/-- One in-place swap of two positions of a list, as slice::swap does on a
Vec; out-of-range indices leave the list unchanged (they never arise in the
shuffle below, whose indices are all in bounds). -/
def listSwap {α : Type} (l : List α) (i j : ℕ) : List α :=
  match l.get? i, l.get? j with
  | some a, some b => (l.set i b).set j a
  | _, _ => l

/-- The Fisher-Yates loop of rand 0.8 SliceRandom::shuffle, called by
Mix::to_ops (perf_map.rs line 181): for i from len-1 down to 1, swap
position i with position rand i mod (i+1), i.e. a drawn index in 0..=i.
The fuel argument is the current value of i. -/
def shuffleAux {α : Type} (rand : ℕ → ℕ) : List α → ℕ → List α
  | l, 0 => l
  | l, Nat.succ i => shuffleAux rand (listSwap l (i + 1) (rand (i + 1) % (i + 2))) i

/-- SliceRandom::shuffle over the whole list (perf_map.rs line 181), with
the RNG abstracted as the draw stream rand. -/
def shuffle {α : Type} (rand : ℕ → ℕ) (l : List α) : List α :=
  shuffleAux rand l (l.length - 1)

/-- Embeds Mix::to_ops (perf_map.rs lines 174-183): build the weighted
list, then shuffle it with the thread RNG (modelled by the stream rand). -/
def Mix.to_ops (m : Mix) (rand : ℕ → ℕ) : List Operation :=
  shuffle rand m.op_list

/-- Embeds struct Keys (perf_map.rs lines 77-81): the backing store of
pre-generated keys and the atomic allocation cursor (its loaded value). -/
structure Keys (K : Type) : Type where
  allocated : ℕ
  keys : List K

/-- Embeds Keys::reset (perf_map.rs lines 101-103): store 0 into the
cursor. -/
def Keys.reset {K : Type} (p : Keys K) : Keys K :=
  { p with allocated := 0 }

/-- Embeds Keys::random (perf_map.rs lines 105-108): load the cursor, then
index the backing store at i mod allocated and clone the key. In Rust,
allocated = 0 makes the remainder panic and an index past the end of the
store panics; both panics are modelled as none. -/
def Keys.random {K : Type} (p : Keys K) (i : ℕ) : Option K :=
  if p.allocated = 0 then none
  else p.keys.get? (i % p.allocated)

/-- Embeds Keys::alloc_n (perf_map.rs lines 116-119): fetch-and-add count
onto the cursor and return the slice of the backing store from the old
cursor to old cursor + count. In Rust the slice expression panics whenever
old cursor + count exceeds the store length; the panic is modelled as
none, and the successful call returns the slice together with the pool
carrying the advanced cursor. -/
def Keys.alloc_n {K : Type} (p : Keys K) (count : ℕ) : Option (List K × Keys K) :=
  if p.allocated + count ≤ p.keys.length then
    some ((p.keys.drop p.allocated).take count,
          { allocated := p.allocated + count, keys := p.keys })
  else none

/-- A sequence of alloc_n calls on one pool, by explicit state passing:
returns, for each call, the old cursor it observed paired with the slice
it returned, plus the final pool; none when some call panics. -/
def allocSeq {K : Type} (p : Keys K) : List ℕ → Option (List (ℕ × List K) × Keys K)
  | [] => some ([], p)
  | c :: cs =>
    match p.alloc_n c with
    | none => none
    | some (sl, p') =>
      match allocSeq p' cs with
      | none => none
      | some (rs, pf) => some ((p.allocated, sl) :: rs, pf)

/-- Embeds the CollectionHandle trait (perf_map.rs lines 33-40): four
boolean operations on the collection under test. The collection's hidden
state is modelled as an abstract type S transformed by every call. -/
structure CollectionHandle (K S : Type) : Type where
  get : K → S → Bool × S
  insert : K → S → Bool × S
  remove : K → S → Bool × S
  update : K → S → Bool × S

/-- One handle invocation as dispatched by the match in run_ops
(perf_map.rs lines 209-227): which trait method was called and with which
key. -/
inductive HandleCall (K : Type) : Type
| get (k : K)
| insert (k : K)
| remove (k : K)
| update (k : K)
deriving DecidableEq

/-- The dispatch of one operation tag by run_ops (perf_map.rs lines
209-227). r is the random usize drawn for this iteration; ins is how many
Insert operations ran before, which drives the cycled iterator over the
thread's pre-allocated slice newKeys (next() on a cycled empty slice
yields None, so unwrap panics: modelled as none). Read/Remove/Update call
the handle on keys.random r; Upsert is dispatched to update exactly as
Update is (line 225). Returns the recorded invocation, its boolean result,
the new collection state and the new insert count. -/
def dispatchOp {K S : Type} (h : CollectionHandle K S) (p : Keys K) (newKeys : List K)
    (op : Operation) (r ins : ℕ) (s : S) : Option (HandleCall K × Bool × S × ℕ) :=
  match op with
  | Operation.read =>
    (p.random r).map (fun k =>
      let bs := h.get k s
      (HandleCall.get k, bs.1, bs.2, ins))
  | Operation.insert =>
    (newKeys.get? (ins % newKeys.length)).map (fun k =>
      let bs := h.insert k s
      (HandleCall.insert k, bs.1, bs.2, ins + 1))
  | Operation.remove =>
    (p.random r).map (fun k =>
      let bs := h.remove k s
      (HandleCall.remove k, bs.1, bs.2, ins))
  | Operation.update =>
    (p.random r).map (fun k =>
      let bs := h.update k s
      (HandleCall.update k, bs.1, bs.2, ins))
  | Operation.upsert =>
    (p.random r).map (fun k =>
      let bs := h.update k s
      (HandleCall.update k, bs.1, bs.2, ins))

/-- The for-loop of run_ops (perf_map.rs lines 206-230), with fuel many
iterations left, i the current loop index, ins the number of Insert
operations performed so far, fails the running value of the total_success
counter (which, per line 229, adds 1 exactly when the call returned
false), and s the collection state. Returns the trace of handle
invocations paired with their boolean results, the final counter and the
final state; none models a panic (empty op_mix makes the index expression
panic, and dispatch itself can panic). -/
def runOpsFrom {K S : Type} (h : CollectionHandle K S) (p : Keys K) (newKeys : List K)
    (opMix : List Operation) (rs : ℕ → ℕ) :
    ℕ → ℕ → ℕ → ℕ → S → Option (List (HandleCall K × Bool) × ℕ × S)
  | 0, _, _, fails, s => some ([], fails, s)
  | Nat.succ fuel, i, ins, fails, s =>
    match opMix.get? (i % opMix.length) with
    | none => none
    | some op =>
      match dispatchOp h p newKeys op (rs i) ins s with
      | none => none
      | some (c, b, s', ins') =>
        match runOpsFrom h p newKeys opMix rs fuel (i + 1) ins' (fails + if b then 0 else 1) s' with
        | none => none
        | some (tr, f, sf) => some ((c, b) :: tr, f, sf)

/-- Embeds run_ops (perf_map.rs lines 194-233): allocate
keys_needed_per_thread keys from the pool (the cycled new_keys iterator),
then run ops_per_thread iterations of the operation loop. The source
returns only the failure counter; the model also returns the invocation
trace and final collection state so that properties of the dispatch can be
stated. -/
def run_ops {K S : Type} (h : CollectionHandle K S) (keys : Keys K)
    (opMix : List Operation) (ops_per_thread keys_needed_per_thread : ℕ)
    (rs : ℕ → ℕ) (s : S) : Option (List (HandleCall K × Bool) × ℕ × S) :=
  match keys.alloc_n keys_needed_per_thread with
  | none => none
  | some (newKeys, keys') => runOpsFrom h keys' newKeys opMix rs ops_per_thread 0 0 0 s

/-- Number of recorded invocations whose boolean result was false. -/
def countFalse {K : Type} (tr : List (HandleCall K × Bool)) : ℕ :=
  (tr.filter (fun cb => !cb.2)).length

/-- Embeds perf_map.rs line 247: ops_per_thread = total_ops / thread_count,
Rust usize division (truncating). -/
def ops_per_thread (total_ops thread_count : ℕ) : ℕ :=
  total_ops / thread_count

/-- Embeds perf_map.rs line 298: real_total_ops = ops_per_thread *
thread_count. -/
def real_total_ops (total_ops thread_count : ℕ) : ℕ :=
  ops_per_thread total_ops thread_count * thread_count

/-- What one worker thread contributes to the shared results list
(perf_map.rs lines 272-288): it calls run_ops, does not bind its return
value, and pushes only the elapsed duration. Elapsed wall-clock time is
not expressible in the embedding, so it is an abstract input here; the
point of the definition is that the pushed value is that input alone,
with the run_ops result discarded exactly as in the source. -/
def worker_pushed_result {K S : Type} (h : CollectionHandle K S) (keys : Keys K)
    (opMix : List Operation) (ops_per_thread keys_needed_per_thread : ℕ)
    (rs : ℕ → ℕ) (s : S) (elapsed : ℚ) : ℚ :=
  let _discarded := run_ops h keys opMix ops_per_thread keys_needed_per_thread rs s
  elapsed

/-- One HashSet::insert of the rejection-sampling loop of Keys::new
(perf_map.rs line 92): a duplicate draw leaves the set unchanged. The set
is modelled as the list of its elements. -/
def insertUnique (s : List ℕ) (x : ℕ) : List ℕ :=
  if x ∈ s then s else x :: s

/-- The while loop of Keys::new (perf_map.rs lines 91-93) run over an
explicit list of RNG draws: fold every draw into the uniqueness set. -/
def sampleUnique (draws : List ℕ) : List ℕ :=
  draws.foldl insertUnique []

/-- Embeds Keys::new (perf_map.rs lines 87-99) with the RNG modelled as
the finite list of u64 draws the loop consumed: the loop terminates
exactly when the uniqueness set has reached total_keys elements, and the
set is materialized through the key conversion from_u64. The infinite loop
on a draw stream with too few distinct values is modelled as none. -/
def Keys.new {K : Type} (from_u64 : ℕ → K) (total_keys : ℕ) (draws : List ℕ) :
    Option (Keys K) :=
  if (sampleUnique draws).length = total_keys then
    some { allocated := 0, keys := (sampleUnique draws).map from_u64 }
  else none

/-- Embeds impl FromU64 for u64 (perf_map.rs lines 64-68): the identity
conversion. -/
def u64_from_u64 (value : ℕ) : ℕ :=
  value

/-- One lowercase hexadecimal digit character, as produced by Rust's
LowerHex formatting: 0-9 then a-f. -/
def hexDigitChar (d : ℕ) : Char :=
  if d < 10 then Char.ofNat (48 + d) else Char.ofNat (87 + d)

/-- Embeds impl FromU64 for String (perf_map.rs lines 71-75): format the
value with {:x}, i.e. its base-16 digits most significant first, in
lowercase, with no leading zeros, and the single digit 0 for value 0. -/
def string_from_u64 (value : ℕ) : String :=
  if value = 0 then "0"
  else String.mk (((Nat.digits 16 value).map hexDigitChar).reverse)

/-- Latency values as produced by f64 arithmetic in the aggregation: a
division with zero divisor produces NaN (0.0/0.0) or an infinity
(x/0.0), collapsed here into one non-finite marker. -/
inductive AvNanos : Type
| nanOrInf
| val (q : ℚ)
deriving DecidableEq

/-- Modelled from the spec: calc_av_nanos lives in perf.rs, which is not
under src/; per the spec it sums all per-thread elapsed durations in
nanoseconds and divides by real_total_ops in f64 arithmetic, so a zero
real_total_ops silently yields NaN or an infinity rather than an error. -/
def calc_av_nanos (durations : List ℚ) (realTotalOps : ℕ) : AvNanos :=
  if realTotalOps = 0 then AvNanos.nanOrInf
  else AvNanos.val (durations.sum / (realTotalOps : ℚ))

/-- The latency figure computed by run_shared_map_test (perf_map.rs lines
247 and 298-299): ops_per_thread = total_ops / thread_count (Rust usize
division panics on a zero divisor, modelled as none — there is no explicit
guard in the source), then calc_av_nanos over the collected durations and
real_total_ops. -/
def run_measurement_latency (total_ops thread_count : ℕ) (durations : List ℚ) :
    Option AvNanos :=
  if thread_count = 0 then none
  else some (calc_av_nanos durations (real_total_ops total_ops thread_count))

/-- Every trace produced by a successful operation loop has exactly one
entry per iteration: fuel many handle invocations. -/
theorem runOpsFrom_trace_length {K S : Type} (h : CollectionHandle K S) (p : Keys K)
    (newKeys : List K) (opMix : List Operation) (rs : ℕ → ℕ) :
    ∀ (fuel i ins fails : ℕ) (s : S) (tr : List (HandleCall K × Bool)) (f : ℕ) (sf : S),
      runOpsFrom h p newKeys opMix rs fuel i ins fails s = some (tr, f, sf) →
      tr.length = fuel := by
  intro fuel
  induction fuel with
  | zero =>
    intro i ins fails s tr f sf hr
    simp only [runOpsFrom, Option.some.injEq, Prod.mk.injEq] at hr
    rw [← hr.1]
    rfl
  | succ fuel ih =>
    intro i ins fails s tr f sf hr
    simp only [runOpsFrom] at hr
    split at hr
    · exact absurd hr (by simp)
    · split at hr
      · exact absurd hr (by simp)
      · split at hr
        · exact absurd hr (by simp)
        · rename_i op hop c b s' ins' hdisp tr' f' sf' hrec
          simp only [Option.some.injEq, Prod.mk.injEq] at hr
          rw [← hr.1]
          simp [ih _ _ _ _ _ _ _ hrec]

/-- Claim C3: for every pool and every alloc_n(count) request whose end index
old_cursor + count exceeds the backing store's capacity, the call fails
immediately (the Rust slice expression panics, modelled as none) and does
not return a truncated or wrapped-around slice of keys. -/
theorem alloc_n_beyond_capacity_fails {K : Type} (p : Keys K) (count : ℕ)
    (hover : p.keys.length < p.allocated + count) :
    p.alloc_n count = none := by
  unfold Keys.alloc_n
  rw [if_neg]
  omega

/-- Witness for C3, the undersized-pool scenario of the spec: a pool of 50
keys with cursor 0 receiving an alloc_n(100) request fails. -/
theorem alloc_n_beyond_capacity_fails_witness :
    (List.range 50).length < 0 + 100 ∧
      (Keys.mk 0 (List.range 50)).alloc_n 100 = none :=
  ⟨by decide, alloc_n_beyond_capacity_fails (Keys.mk 0 (List.range 50)) 100 (by decide)⟩

/-- Claim C7: for every pool whose cursor is positive and within the backing
store, random(i) returns the key of the backing store at position
i mod currently_allocated, and that position lies in the already allocated
prefix of the store. -/
theorem random_reads_allocated_index {K : Type} (p : Keys K) (i : ℕ)
    (hpos : 0 < p.allocated) (hle : p.allocated ≤ p.keys.length) :
    i % p.allocated < p.allocated ∧
      p.random i = p.keys.get? (i % p.allocated) ∧
      p.random i = some (p.keys.get ⟨i % p.allocated, lt_of_lt_of_le (Nat.mod_lt i hpos) hle⟩) := by
  have hlt : i % p.allocated < p.allocated := Nat.mod_lt i hpos
  refine ⟨hlt, ?_, ?_⟩
  · unfold Keys.random
    rw [if_neg (Nat.pos_iff_ne_zero.mp hpos)]
  · unfold Keys.random
    rw [if_neg (Nat.pos_iff_ne_zero.mp hpos)]
    exact List.get?_eq_get (lt_of_lt_of_le hlt hle)

/-- Witness for C7: a pool with three keys of which two are allocated;
random 5 reads position 5 mod 2 = 1. -/
theorem random_reads_allocated_index_witness :
    0 < (Keys.mk 2 [5, 7, 9]).allocated ∧
      (Keys.mk 2 [5, 7, 9]).allocated ≤ (Keys.mk 2 [5, 7, 9]).keys.length ∧
      (Keys.mk 2 [5, 7, 9]).random 5 = (Keys.mk 2 [5, 7, 9]).keys.get? (5 % 2) :=
  ⟨by decide, by decide,
    (random_reads_allocated_index (Keys.mk 2 [5, 7, 9]) 5 (by decide) (by decide)).2.1⟩

/-- Claim C5: with a positive thread count, the benchmark computes
ops_per_thread by truncating integer division; real_total_ops equals
(total_ops / thread_count) * thread_count exactly, is never rounded up
past total_ops (what is missing from total_ops is exactly the division
remainder), and every successful run_ops call performs exactly
ops_per_thread handle invocations, so remainder operations are never
executed. -/
theorem real_total_ops_truncates (total_ops thread_count : ℕ)
    (htc : 0 < thread_count) :
    real_total_ops total_ops thread_count
        = (total_ops / thread_count) * thread_count
      ∧ real_total_ops total_ops thread_count + total_ops % thread_count = total_ops
      ∧ real_total_ops total_ops thread_count ≤ total_ops
      ∧ (∀ (K S : Type) (h : CollectionHandle K S) (keys : Keys K)
            (opMix : List Operation) (kn : ℕ) (rs : ℕ → ℕ) (s : S)
            (tr : List (HandleCall K × Bool)) (f : ℕ) (sf : S),
          run_ops h keys opMix (ops_per_thread total_ops thread_count) kn rs s
              = some (tr, f, sf) →
          tr.length = ops_per_thread total_ops thread_count) := by
  refine ⟨rfl, ?_, ?_, ?_⟩
  · unfold real_total_ops ops_per_thread
    rw [Nat.mul_comm]
    exact Nat.div_add_mod total_ops thread_count
  · unfold real_total_ops ops_per_thread
    calc total_ops / thread_count * thread_count
        = thread_count * (total_ops / thread_count) := Nat.mul_comm _ _
      _ ≤ total_ops := Nat.mul_div_le total_ops thread_count
  · intro K S h keys opMix kn rs s tr f sf hrun
    unfold run_ops at hrun
    split at hrun
    · exact absurd hrun (by simp)
    · exact runOpsFrom_trace_length h _ _ opMix rs _ _ _ _ _ _ _ _ hrun

/-- A collection handle over Nat keys whose four operations always
succeed and do not change the (unit) state; used to instantiate run_ops
on concrete inputs. -/
def handleOk : CollectionHandle ℕ Unit :=
  { get := fun _ s => (true, s)
    insert := fun _ s => (true, s)
    remove := fun _ s => (true, s)
    update := fun _ s => (true, s) }

/-- Witness for C5: 10 total operations over 4 threads truncate to 2 per
thread, 8 real operations, remainder 2 dropped; a concrete successful
run_ops with ops_per_thread = 2 performs exactly 2 invocations. -/
theorem real_total_ops_truncates_witness :
    real_total_ops 10 4 = (10 / 4) * 4
      ∧ real_total_ops 10 4 + 10 % 4 = 10
      ∧ real_total_ops 10 4 ≤ 10
      ∧ ([(HandleCall.get 42, true), (HandleCall.get 42, true)] :
            List (HandleCall ℕ × Bool)).length = ops_per_thread 10 4 :=
  ⟨(real_total_ops_truncates 10 4 (by decide)).1,
   (real_total_ops_truncates 10 4 (by decide)).2.1,
   (real_total_ops_truncates 10 4 (by decide)).2.2.1,
   (real_total_ops_truncates 10 4 (by decide)).2.2.2 ℕ Unit handleOk
     (Keys.mk 1 [42]) [Operation.read] 0 (fun _ => 0) ()
     [(HandleCall.get 42, true), (HandleCall.get 42, true)] 0 () rfl⟩

/-- Claim C8 (refuted on the code): for the degenerate configuration
total_ops = 2, thread_count = 4 (so ops_per_thread = 0 and
real_total_ops = 0), the run reaches the aggregation and silently
produces a non-finite f64 average (division by zero), with no explicit
guard and no configuration error; and for thread_count = 0 the unguarded
usize division at the top of the run panics. -/
theorem degenerate_config_silently_nan :
    run_measurement_latency 2 4 [1, 1, 1, 1] = some AvNanos.nanOrInf
      ∧ run_measurement_latency 5 0 [1] = none := by
  constructor
  · rfl
  · rfl

/-- The counter accumulated by the operation loop equals its input plus
the number of invocations in the produced trace whose result was false. -/
theorem runOpsFrom_counts_failures {K S : Type} (h : CollectionHandle K S) (p : Keys K)
    (newKeys : List K) (opMix : List Operation) (rs : ℕ → ℕ) :
    ∀ (fuel i ins fails : ℕ) (s : S) (tr : List (HandleCall K × Bool)) (f : ℕ) (sf : S),
      runOpsFrom h p newKeys opMix rs fuel i ins fails s = some (tr, f, sf) →
      f = fails + countFalse tr := by
  intro fuel
  induction fuel with
  | zero =>
    intro i ins fails s tr f sf hr
    simp only [runOpsFrom, Option.some.injEq, Prod.mk.injEq] at hr
    rw [← hr.1, ← hr.2.1]
    simp [countFalse]
  | succ fuel ih =>
    intro i ins fails s tr f sf hr
    simp only [runOpsFrom] at hr
    split at hr
    · exact absurd hr (by simp)
    · split at hr
      · exact absurd hr (by simp)
      · split at hr
        · exact absurd hr (by simp)
        · rename_i op hop c b s' ins' hdisp tr' f' sf' hrec
          simp only [Option.some.injEq, Prod.mk.injEq] at hr
          rw [← hr.1, ← hr.2.1]
          have hf' := ih _ _ _ _ _ _ _ hrec
          cases c <;> simp [countFalse, List.filter] at hf' ⊢ <;> omega

/-- Claim C6: the counter returned by run_ops equals the number of operations
whose handle call returned false (successes are not tallied), and the
worker thread never surfaces it: what the worker pushes into the results
list is the elapsed duration alone, with run_ops's return value
discarded. -/
theorem run_ops_counts_failures_not_surfaced {K S : Type} (h : CollectionHandle K S)
    (keys : Keys K) (opMix : List Operation) (n kn : ℕ) (rs : ℕ → ℕ) (s : S)
    (tr : List (HandleCall K × Bool)) (f : ℕ) (sf : S)
    (hrun : run_ops h keys opMix n kn rs s = some (tr, f, sf)) :
    f = countFalse tr
      ∧ ∀ elapsed : ℚ,
          worker_pushed_result h keys opMix n kn rs s elapsed = elapsed := by
  constructor
  · unfold run_ops at hrun
    split at hrun
    · exact absurd hrun (by simp)
    · have := runOpsFrom_counts_failures h _ _ opMix rs _ _ _ _ _ _ _ _ hrun
      omega
  · intro elapsed
    rfl

/-- A collection handle over Nat keys whose get always fails and whose
other operations always succeed, with unit state; exercises the failure
counter on concrete inputs. -/
def handleGetFails : CollectionHandle ℕ Unit :=
  { get := fun _ s => (false, s)
    insert := fun _ s => (true, s)
    remove := fun _ s => (true, s)
    update := fun _ s => (true, s) }

/-- Witness for C6: one Read against a handle whose get fails produces
counter 1 = number of false results in the trace, and the worker pushes
exactly the elapsed value 5. -/
theorem run_ops_counts_failures_not_surfaced_witness :
    run_ops handleGetFails (Keys.mk 1 [42]) [Operation.read] 1 0 (fun _ => 0) ()
        = some ([(HandleCall.get 42, false)], 1, ())
      ∧ 1 = countFalse [(HandleCall.get 42, false)]
      ∧ worker_pushed_result handleGetFails (Keys.mk 1 [42]) [Operation.read] 1 0
          (fun _ => 0) () 5 = 5 :=
  ⟨rfl,
   (run_ops_counts_failures_not_surfaced handleGetFails (Keys.mk 1 [42])
      [Operation.read] 1 0 (fun _ => 0) () [(HandleCall.get 42, false)] 1 () rfl).1,
   (run_ops_counts_failures_not_surfaced handleGetFails (Keys.mk 1 [42])
      [Operation.read] 1 0 (fun _ => 0) () [(HandleCall.get 42, false)] 1 () rfl).2 5⟩

/-- Specification of a sequence of alloc_n calls from an arbitrary start
cursor: the backing store is untouched, the final cursor advances by the
sum of the counts, and the j-th call observed old cursor
start + sum of the first j counts and returned the slice of count_j keys
beginning there. -/
theorem allocSeq_spec {K : Type} :
    ∀ (cs : List ℕ) (p : Keys K) (rs : List (ℕ × List K)) (pf : Keys K),
      allocSeq p cs = some (rs, pf) →
      pf.keys = p.keys
        ∧ pf.allocated = p.allocated + cs.sum
        ∧ rs.length = cs.length
        ∧ ∀ j, j < cs.length →
            ∃ c, cs.get? j = some c
              ∧ rs.get? j = some (p.allocated + (cs.take j).sum,
                  (p.keys.drop (p.allocated + (cs.take j).sum)).take c) := by
  intro cs
  induction cs with
  | nil =>
    intro p rs pf hr
    simp only [allocSeq, Option.some.injEq, Prod.mk.injEq] at hr
    obtain ⟨h1, h2⟩ := hr
    subst h1
    subst h2
    simp
  | cons c cs ih =>
    intro p rs pf hr
    simp only [allocSeq] at hr
    split at hr
    · exact absurd hr (by simp)
    · rename_i sl p' heq
      split at hr
      · exact absurd hr (by simp)
      · rename_i rs' pf' heq2
        simp only [Option.some.injEq, Prod.mk.injEq] at hr
        obtain ⟨h1, h2⟩ := hr
        subst h1
        subst h2
        unfold Keys.alloc_n at heq
        split at heq
        · rename_i hcap
          simp only [Option.some.injEq, Prod.mk.injEq] at heq
          obtain ⟨hsl, hp'⟩ := heq
          subst hp'
          obtain ⟨ihk, iha, ihl, ihj⟩ := ih _ _ _ heq2
          simp only at ihk iha
          refine ⟨ihk, ?_, ?_, ?_⟩
          · rw [iha, List.sum_cons]
            omega
          · simp [ihl]
          · intro j hj
            cases j with
            | zero =>
              refine ⟨c, rfl, ?_⟩
              simp [← hsl]
            | succ j =>
              have hj' : j < cs.length := by simpa using hj
              obtain ⟨c', hc', hr'⟩ := ihj j hj'
              refine ⟨c', hc', ?_⟩
              simp only at hr'
              simp only [List.get?_cons_succ, List.take_succ_cons, List.sum_cons]
              rw [hr']
              have harith : p.allocated + c + (List.take j cs).sum
                  = p.allocated + (c + (List.take j cs).sum) := by omega
              rw [harith]
        · exact absurd heq (by simp)

/-- Monotonicity of partial sums of a list of Nat counts. -/
theorem sum_take_mono (l : List ℕ) {a b : ℕ} (hab : a ≤ b) :
    (l.take a).sum ≤ (l.take b).sum := by
  have h1 : l.take a = (l.take b).take a := by
    rw [List.take_take, Nat.min_eq_left hab]
  rw [h1]
  conv_rhs => rw [← List.take_append_drop a (l.take b)]
  rw [List.sum_append]
  exact Nat.le_add_right _ _

/-- Claim C1: for every sequence of alloc_n calls on one pool starting from
cursor 0, each call returns the half-open slice of the backing store that
begins at its old cursor (the sum of the previously requested counts) and
has its requested length, the returned ranges are pairwise non-overlapping
(each earlier range ends no later than a later one begins), and after all
calls the cursor equals the sum of all requested counts. -/
theorem alloc_n_seq_disjoint {K : Type} (cs : List ℕ) (p : Keys K)
    (rs : List (ℕ × List K)) (pf : Keys K)
    (hzero : p.allocated = 0) (hrun : allocSeq p cs = some (rs, pf)) :
    rs.length = cs.length
      ∧ (∀ j, j < cs.length →
          ∃ c, cs.get? j = some c
            ∧ rs.get? j = some ((cs.take j).sum,
                (p.keys.drop ((cs.take j).sum)).take c))
      ∧ (∀ j k cj ck sj sk slj slk, j < k → k < cs.length →
          cs.get? j = some cj → cs.get? k = some ck →
          rs.get? j = some (sj, slj) → rs.get? k = some (sk, slk) →
          sj + cj ≤ sk)
      ∧ pf.allocated = cs.sum := by
  obtain ⟨hk, ha, hl, hj⟩ := allocSeq_spec cs p rs pf hrun
  rw [hzero] at ha hj
  simp only [Nat.zero_add] at ha hj
  refine ⟨hl, hj, ?_, ha⟩
  intro j k cj ck sj sk slj slk hjk hk' hcj hck hrj hrk
  obtain ⟨c1, hc1, hr1⟩ := hj j (Nat.lt_trans hjk hk')
  obtain ⟨c2, hc2, hr2⟩ := hj k hk'
  rw [hcj] at hc1
  rw [hrj] at hr1
  rw [hrk] at hr2
  simp only [Option.some.injEq, Prod.mk.injEq] at hc1 hr1 hr2
  have hsj : sj = (cs.take j).sum := hr1.1
  have hsk : sk = (cs.take k).sum := hr2.1
  have hcj1 : cj = c1 := hc1
  have hstep : (cs.take (j + 1)).sum = (cs.take j).sum + cj := by
    rw [List.take_succ]
    rw [List.sum_append]
    have : cs.get? j = some cj := hcj
    rw [List.get?_eq_getElem?] at this
    simp [this]
  have hmono : (cs.take (j + 1)).sum ≤ (cs.take k).sum :=
    sum_take_mono cs (Nat.succ_le_of_lt hjk)
  omega

/-- Witness for C1: two calls alloc_n 2 then alloc_n 3 on a six-key pool
with cursor 0 return the slices at 0 and at 2 and leave the cursor at 5. -/
theorem alloc_n_seq_disjoint_witness :
    (Keys.mk 0 (List.range 6) : Keys ℕ).allocated = 0
      ∧ allocSeq (Keys.mk 0 (List.range 6)) [2, 3]
          = some ([(0, [0, 1]), (2, [2, 3, 4])], Keys.mk 5 (List.range 6))
      ∧ (Keys.mk 5 (List.range 6) : Keys ℕ).allocated = [2, 3].sum :=
  ⟨rfl, rfl,
    (alloc_n_seq_disjoint [2, 3] (Keys.mk 0 (List.range 6))
        [(0, [0, 1]), (2, [2, 3, 4])] (Keys.mk 5 (List.range 6)) rfl rfl).2.2.2⟩

/-- Replacing the element at a valid position and carrying the old element
to the front permutes the list with the new element at the front. -/
theorem cons_set_perm {α : Type} :
    ∀ (t : List α) (m : ℕ) (a b : α), t.get? m = some b →
      (b :: t.set m a).Perm (a :: t) := by
  intro t
  induction t with
  | nil => intro m a b hb; simp at hb
  | cons c t ih =>
    intro m a b hb
    cases m with
    | zero =>
      simp only [List.get?_cons_zero, Option.some.injEq] at hb
      subst hb
      simp only [List.set_cons_zero]
      exact List.Perm.swap a c t
    | succ m =>
      simp only [List.get?_cons_succ] at hb
      simp only [List.set_cons_succ]
      have h1 : (b :: c :: t.set m a).Perm (c :: b :: t.set m a) :=
        List.Perm.swap c b _
      have h2 : (c :: b :: t.set m a).Perm (c :: a :: t) := (ih m a b hb).cons c
      have h3 : (c :: a :: t).Perm (a :: c :: t) := List.Perm.swap a c t
      exact (h1.trans h2).trans h3

/-- The two writes of an in-place swap of positions i and j permute the
list. -/
theorem set_set_perm {α : Type} :
    ∀ (l : List α) (i j : ℕ) (a b : α),
      l.get? i = some a → l.get? j = some b →
      ((l.set i b).set j a).Perm l := by
  intro l
  induction l with
  | nil => intro i j a b ha _; simp at ha
  | cons c t ih =>
    intro i j a b ha hb
    cases i with
    | zero =>
      simp only [List.get?_cons_zero, Option.some.injEq] at ha
      subst ha
      cases j with
      | zero =>
        simp only [List.get?_cons_zero, Option.some.injEq] at hb
        subst hb
        simp
      | succ m =>
        simp only [List.get?_cons_succ] at hb
        simp only [List.set_cons_zero, List.set_cons_succ]
        exact cons_set_perm t m c b hb
    | succ m =>
      simp only [List.get?_cons_succ] at ha
      cases j with
      | zero =>
        simp only [List.get?_cons_zero, Option.some.injEq] at hb
        subst hb
        simp only [List.set_cons_succ, List.set_cons_zero]
        exact cons_set_perm t m c a ha
      | succ k =>
        simp only [List.get?_cons_succ] at hb
        simp only [List.set_cons_succ]
        exact (ih m k a b ha hb).cons c

/-- One swap step of the shuffle permutes the list. -/
theorem listSwap_perm {α : Type} (l : List α) (i j : ℕ) :
    (listSwap l i j).Perm l := by
  unfold listSwap
  cases h1 : l.get? i with
  | none => exact List.Perm.refl l
  | some a =>
    cases h2 : l.get? j with
    | none => exact List.Perm.refl l
    | some b => exact set_set_perm l i j a b h1 h2

/-- Every run of the Fisher-Yates loop permutes the list. -/
theorem shuffleAux_perm {α : Type} (rand : ℕ → ℕ) :
    ∀ (n : ℕ) (l : List α), (shuffleAux rand l n).Perm l := by
  intro n
  induction n with
  | zero => intro l; exact List.Perm.refl l
  | succ i ih =>
    intro l
    exact (ih _).trans (listSwap_perm l (i + 1) (rand (i + 1) % (i + 2)))

/-- The shuffle is a permutation, not a resample. -/
theorem shuffle_perm {α : Type} (rand : ℕ → ℕ) (l : List α) :
    (shuffle rand l).Perm l :=
  shuffleAux_perm rand (l.length - 1) l

/-- Tag counts of the pre-shuffle list: exactly the declared weights. -/
theorem op_list_counts (m : Mix) :
    m.op_list.count Operation.read = m.read
      ∧ m.op_list.count Operation.insert = m.insert
      ∧ m.op_list.count Operation.remove = m.remove
      ∧ m.op_list.count Operation.update = m.update
      ∧ m.op_list.count Operation.upsert = m.upsert := by
  refine ⟨?_, ?_, ?_, ?_, ?_⟩ <;>
    simp [Mix.op_list, List.count_append, List.count_replicate]

/-- Claim C2: for every Mix with weights (r, i, rm, u, up) and every RNG stream,
to_ops produces a permutation of the pre-shuffle list (the shuffle
preserves the multiset of tags), of length r+i+rm+u+up, containing exactly
r Read, i Insert, rm Remove, u Update and up Upsert tags; in particular
read_heavy expands to 95 Read, 2 Insert, 1 Remove, 1 Update, 1 Upsert,
total length 100. -/
theorem to_ops_tag_counts (m : Mix) (rand : ℕ → ℕ) :
    (m.to_ops rand).Perm m.op_list
      ∧ (m.to_ops rand).length = m.read + m.insert + m.remove + m.update + m.upsert
      ∧ (m.to_ops rand).count Operation.read = m.read
      ∧ (m.to_ops rand).count Operation.insert = m.insert
      ∧ (m.to_ops rand).count Operation.remove = m.remove
      ∧ (m.to_ops rand).count Operation.update = m.update
      ∧ (m.to_ops rand).count Operation.upsert = m.upsert
      ∧ (Mix.read_heavy.to_ops rand).length = 100
      ∧ (Mix.read_heavy.to_ops rand).count Operation.read = 95
      ∧ (Mix.read_heavy.to_ops rand).count Operation.insert = 2
      ∧ (Mix.read_heavy.to_ops rand).count Operation.remove = 1
      ∧ (Mix.read_heavy.to_ops rand).count Operation.update = 1
      ∧ (Mix.read_heavy.to_ops rand).count Operation.upsert = 1 := by
  have key : ∀ mx : Mix,
      ((mx.to_ops rand).Perm mx.op_list)
        ∧ (mx.to_ops rand).length
            = mx.read + mx.insert + mx.remove + mx.update + mx.upsert
        ∧ (mx.to_ops rand).count Operation.read = mx.read
        ∧ (mx.to_ops rand).count Operation.insert = mx.insert
        ∧ (mx.to_ops rand).count Operation.remove = mx.remove
        ∧ (mx.to_ops rand).count Operation.update = mx.update
        ∧ (mx.to_ops rand).count Operation.upsert = mx.upsert := by
    intro mx
    have hp : (mx.to_ops rand).Perm mx.op_list := shuffle_perm rand mx.op_list
    have hc := op_list_counts mx
    refine ⟨hp, ?_, ?_, ?_, ?_, ?_, ?_⟩
    · rw [hp.length_eq]
      simp only [Mix.op_list, List.length_append, List.length_replicate]
    · rw [hp.count_eq]; exact hc.1
    · rw [hp.count_eq]; exact hc.2.1
    · rw [hp.count_eq]; exact hc.2.2.1
    · rw [hp.count_eq]; exact hc.2.2.2.1
    · rw [hp.count_eq]; exact hc.2.2.2.2
  obtain ⟨a1, a2, a3, a4, a5, a6, a7⟩ := key m
  obtain ⟨_, b2, b3, b4, b5, b6, b7⟩ := key Mix.read_heavy
  exact ⟨a1, a2, a3, a4, a5, a6, a7, b2, b3, b4, b5, b6, b7⟩

/-- Relation: l2 is l1 with some (possibly none, possibly all) Upsert tags replaced
by Update tags. -/
def UpsertReplaced (l1 l2 : List Operation) : Prop :=
  l1.length = l2.length
    ∧ ∀ j, j < l1.length →
        l1.get? j = l2.get? j
          ∨ (l1.get? j = some Operation.upsert ∧ l2.get? j = some Operation.update)

/-- The operation loop cannot tell an Upsert tag from an Update tag:
replacing Upserts by Updates leaves the whole loop result (trace, counter,
final state, or panic) unchanged. -/
theorem runOpsFrom_upsert_congr {K S : Type} (h : CollectionHandle K S) (p : Keys K)
    (newKeys : List K) (rs : ℕ → ℕ) (l1 l2 : List Operation)
    (hrel : UpsertReplaced l1 l2) :
    ∀ (fuel i ins fails : ℕ) (s : S),
      runOpsFrom h p newKeys l1 rs fuel i ins fails s
        = runOpsFrom h p newKeys l2 rs fuel i ins fails s := by
  obtain ⟨hlen, hpt⟩ := hrel
  intro fuel
  induction fuel with
  | zero => intro i ins fails s; rfl
  | succ fuel ih =>
    intro i ins fails s
    by_cases h0 : l1.length = 0
    · have h1 : l1 = [] := List.length_eq_zero.mp h0
      have h2 : l2 = [] := List.length_eq_zero.mp (by rw [← hlen]; exact h0)
      subst h1
      subst h2
      rfl
    · have hpos : 0 < l1.length := Nat.pos_of_ne_zero h0
      have hidx : i % l2.length = i % l1.length := by rw [hlen]
      rcases hpt (i % l1.length) (Nat.mod_lt i hpos) with heq | ⟨hu1, hu2⟩
      · simp only [runOpsFrom, hidx, ← heq]
        cases hop : l1.get? (i % l1.length) with
        | none => rfl
        | some op =>
          dsimp only
          cases hd : dispatchOp h p newKeys op (rs i) ins s with
          | none => rfl
          | some r =>
            obtain ⟨c, b, s', ins'⟩ := r
            dsimp only
            rw [ih]
      · simp only [runOpsFrom, hidx, hu1, hu2]
        rw [show dispatchOp h p newKeys Operation.update (rs i) ins s
              = dispatchOp h p newKeys Operation.upsert (rs i) ins s from rfl]
        cases hd : dispatchOp h p newKeys Operation.upsert (rs i) ins s with
        | none => rfl
        | some r =>
          obtain ⟨c, b, s', ins'⟩ := r
          dsimp only
          rw [ih]

/-- Claim C4: in run_ops an Upsert operation is dispatched to the same handle
call as an Update operation; replacing any Upsert tags by Update tags in
the operation sequence yields an identical run: the same sequence of
handle invocations with the same results (and the same counter and final
state). -/
theorem upsert_dispatched_as_update {K S : Type} (h : CollectionHandle K S)
    (keys : Keys K) (l1 l2 : List Operation) (hrel : UpsertReplaced l1 l2)
    (n kn : ℕ) (rs : ℕ → ℕ) (s : S) :
    run_ops h keys l1 n kn rs s = run_ops h keys l2 n kn rs s := by
  unfold run_ops
  cases keys.alloc_n kn with
  | none => rfl
  | some r =>
    obtain ⟨newKeys, keys'⟩ := r
    exact runOpsFrom_upsert_congr h keys' newKeys rs l1 l2 hrel n 0 0 0 s

/-- Witness for C4: the one-operation sequences Upsert and Update yield
identical runs on a concrete pool and handle. -/
theorem upsert_dispatched_as_update_witness :
    run_ops handleOk (Keys.mk 1 [42]) [Operation.upsert] 1 0 (fun _ => 0) ()
      = run_ops handleOk (Keys.mk 1 [42]) [Operation.update] 1 0 (fun _ => 0) () :=
  upsert_dispatched_as_update handleOk (Keys.mk 1 [42])
    [Operation.upsert] [Operation.update]
    (by unfold UpsertReplaced; exact ⟨rfl, by decide⟩) 1 0 (fun _ => 0) ()

/-- With an empty pre-allocated key slice, the operation loop panics as
soon as any iteration in its window dispatches an Insert: the cycled
iterator over the empty slice yields None and unwrap panics. -/
theorem runOpsFrom_nil_newkeys_insert_none {K S : Type} (h : CollectionHandle K S)
    (p : Keys K) (opMix : List Operation) (rs : ℕ → ℕ) :
    ∀ (fuel i ins fails : ℕ) (s : S),
      (∃ m, m < fuel ∧ opMix.get? ((i + m) % opMix.length) = some Operation.insert) →
      runOpsFrom h p [] opMix rs fuel i ins fails s = none := by
  intro fuel
  induction fuel with
  | zero =>
    intro i ins fails s hex
    obtain ⟨m, hm, _⟩ := hex
    exact absurd hm (Nat.not_lt_zero m)
  | succ fuel ih =>
    intro i ins fails s hex
    obtain ⟨m, hm, hins⟩ := hex
    simp only [runOpsFrom]
    cases hgi : opMix.get? (i % opMix.length) with
    | none => rfl
    | some op =>
      dsimp only
      by_cases hop : op = Operation.insert
      · subst hop
        rfl
      · have hm0 : m ≠ 0 := by
          intro h0
          subst h0
          rw [Nat.add_zero] at hins
          rw [hgi] at hins
          exact hop (Option.some.inj hins)
        obtain ⟨m', rfl⟩ : ∃ m', m = m' + 1 := ⟨m - 1, by omega⟩
        cases hd : dispatchOp h p [] op (rs i) ins s with
        | none => rfl
        | some r =>
          obtain ⟨c, b, s', ins'⟩ := r
          dsimp only
          rw [ih (i + 1) ins' (fails + if b then 0 else 1) s'
            ⟨m', by omega, by
              have harith : i + 1 + m' = i + (m' + 1) := by omega
              rw [harith]
              exact hins⟩]

/-- Claim C10: run_ops is total only when the thread allocated at least one key
or the executed window of the operation sequence dispatches no Insert:
with keys_needed_per_thread = 0 (and a cursor within the store, so that
the empty allocation itself succeeds), any Insert among the executed
operations makes run_ops panic on unwrap of the exhausted cycled
iterator. -/
theorem run_ops_no_keys_insert_panics {K S : Type} (h : CollectionHandle K S)
    (keys : Keys K) (opMix : List Operation) (n : ℕ) (rs : ℕ → ℕ) (s : S)
    (hcap : keys.allocated ≤ keys.keys.length)
    (hins : ∃ m, m < n ∧ opMix.get? (m % opMix.length) = some Operation.insert) :
    run_ops h keys opMix n 0 rs s = none := by
  unfold run_ops Keys.alloc_n
  rw [if_pos (by omega)]
  dsimp only
  refine runOpsFrom_nil_newkeys_insert_none h _ opMix rs n 0 0 0 s ?_
  obtain ⟨m, hm, hi⟩ := hins
  exact ⟨m, hm, by rwa [Nat.zero_add]⟩

/-- Witness for C10: one Insert operation with keys_needed_per_thread = 0
panics. -/
theorem run_ops_no_keys_insert_panics_witness :
    run_ops handleOk (Keys.mk 0 [7]) [Operation.insert] 1 0 (fun _ => 0) () = none :=
  run_ops_no_keys_insert_panics handleOk (Keys.mk 0 [7]) [Operation.insert] 1
    (fun _ => 0) () (by decide) ⟨0, by decide, rfl⟩

/-- Decodes one lowercase hexadecimal digit character back to its value. -/
def hexVal (c : Char) : ℕ :=
  if 97 ≤ c.toNat then c.toNat - 87 else c.toNat - 48

/-- hexVal is a left inverse of hexDigitChar on digit values. -/
theorem hexVal_hexDigitChar : ∀ d, d < 16 → hexVal (hexDigitChar d) = d := by
  decide

/-- Mapping hexadecimal digits to characters is cancelled by hexVal. -/
theorem map_hexDigitChar_cancel :
    ∀ (l : List ℕ), (∀ d ∈ l, d < 16) → (l.map hexDigitChar).map hexVal = l := by
  intro l
  induction l with
  | nil => intro _; rfl
  | cons d l ih =>
    intro hbound
    simp only [List.map_cons, List.cons.injEq]
    constructor
    · exact hexVal_hexDigitChar d (hbound d (List.mem_cons_self d l))
    · exact ih (fun e he => hbound e (List.mem_cons_of_mem d he))

/-- The lowercase hexadecimal encoding of Rust's LowerHex formatting is
injective. -/
theorem string_from_u64_injective : Function.Injective string_from_u64 := by
  intro a b hab
  unfold string_from_u64 at hab
  have hbound : ∀ n : ℕ, ∀ d ∈ Nat.digits 16 n, d < 16 := fun n d hd =>
    Nat.digits_lt_base (by norm_num) hd
  by_cases ha : a = 0 <;> by_cases hb : b = 0
  · rw [ha, hb]
  · exfalso
    rw [if_pos ha, if_neg hb] at hab
    have hdata : ("0" : String).data = ((Nat.digits 16 b).map hexDigitChar).reverse :=
      congrArg String.data hab
    have h0 : ("0" : String).data = ['0'] := rfl
    rw [h0] at hdata
    have hmap : (Nat.digits 16 b).map hexDigitChar = ['0'] := by
      have hrev := congrArg List.reverse hdata
      simpa using hrev.symm
    have hdig : Nat.digits 16 b = [0] := by
      have hcancel := map_hexDigitChar_cancel (Nat.digits 16 b) (hbound b)
      rw [← hcancel, hmap]
      rfl
    have hb0 : b = 0 := by
      have hof := Nat.ofDigits_digits 16 b
      rw [hdig] at hof
      simpa [Nat.ofDigits] using hof.symm
    exact hb hb0
  · exfalso
    rw [if_neg ha, if_pos hb] at hab
    have hdata : ((Nat.digits 16 a).map hexDigitChar).reverse = ("0" : String).data :=
      congrArg String.data hab
    have h0 : ("0" : String).data = ['0'] := rfl
    rw [h0] at hdata
    have hmap : (Nat.digits 16 a).map hexDigitChar = ['0'] := by
      have hrev := congrArg List.reverse hdata
      simpa using hrev
    have hdig : Nat.digits 16 a = [0] := by
      have hcancel := map_hexDigitChar_cancel (Nat.digits 16 a) (hbound a)
      rw [← hcancel, hmap]
      rfl
    have ha0 : a = 0 := by
      have hof := Nat.ofDigits_digits 16 a
      rw [hdig] at hof
      simpa [Nat.ofDigits] using hof.symm
    exact ha ha0
  · rw [if_neg ha, if_neg hb] at hab
    injection hab with hdata
    have hmap : (Nat.digits 16 a).map hexDigitChar = (Nat.digits 16 b).map hexDigitChar := by
      have hrev := congrArg List.reverse hdata
      simpa using hrev
    have hdig : Nat.digits 16 a = Nat.digits 16 b := by
      have ha' := map_hexDigitChar_cancel (Nat.digits 16 a) (hbound a)
      have hb' := map_hexDigitChar_cancel (Nat.digits 16 b) (hbound b)
      rw [← ha', ← hb', hmap]
    have hof := congrArg (Nat.ofDigits 16) hdig
    rwa [Nat.ofDigits_digits, Nat.ofDigits_digits] at hof

/-- Inserting into the uniqueness set keeps its element list without
duplicates. -/
theorem insertUnique_nodup (s : List ℕ) (x : ℕ) (hs : s.Nodup) :
    (insertUnique s x).Nodup := by
  unfold insertUnique
  split
  · exact hs
  · exact List.nodup_cons.mpr ⟨by assumption, hs⟩

/-- The uniqueness set built by the rejection-sampling loop never holds
duplicates, whatever the draws were. -/
theorem sampleUnique_nodup (draws : List ℕ) : (sampleUnique draws).Nodup := by
  unfold sampleUnique
  have key : ∀ (ds : List ℕ) (s : List ℕ), s.Nodup → (ds.foldl insertUnique s).Nodup := by
    intro ds
    induction ds with
    | nil => intro s hs; exact hs
    | cons d ds ih =>
      intro s hs
      exact ih (insertUnique s d) (insertUnique_nodup s d hs)
  exact key draws [] List.nodup_nil

/-- Claim C9: every successfully constructed KeyPool with total_keys = N has a
backing store of exactly N pairwise distinct keys, under both supported
key conversions: the identity on u64 and the lowercase hexadecimal string
encoding (injective). -/
theorem keys_new_pairwise_distinct (total_keys : ℕ) (draws : List ℕ)
    (pu : Keys ℕ) (ps : Keys String)
    (hu : Keys.new u64_from_u64 total_keys draws = some pu)
    (hs : Keys.new string_from_u64 total_keys draws = some ps) :
    pu.keys.length = total_keys ∧ pu.keys.Nodup
      ∧ ps.keys.length = total_keys ∧ ps.keys.Nodup := by
  unfold Keys.new at hu hs
  by_cases hcond : (sampleUnique draws).length = total_keys
  · rw [if_pos hcond] at hu hs
    simp only [Option.some.injEq] at hu hs
    subst hu
    subst hs
    refine ⟨?_, ?_, ?_, ?_⟩
    · simpa using hcond
    · exact (sampleUnique_nodup draws).map (fun a b hab => hab)
    · simpa using hcond
    · exact (sampleUnique_nodup draws).map string_from_u64_injective
  · rw [if_neg hcond] at hu
    exact absurd hu (by simp)

/-- Witness for C9: three draws 0, 1, 2 build a pool of 3 distinct keys
for both conversions. -/
theorem keys_new_pairwise_distinct_witness :
    Keys.new u64_from_u64 3 [0, 1, 2]
        = some (Keys.mk 0 ((sampleUnique [0, 1, 2]).map u64_from_u64))
      ∧ Keys.new string_from_u64 3 [0, 1, 2]
        = some (Keys.mk 0 ((sampleUnique [0, 1, 2]).map string_from_u64))
      ∧ ((sampleUnique [0, 1, 2]).map u64_from_u64).Nodup
      ∧ ((sampleUnique [0, 1, 2]).map string_from_u64).length = 3
      ∧ ((sampleUnique [0, 1, 2]).map string_from_u64).Nodup :=
  ⟨rfl, rfl,
   (keys_new_pairwise_distinct 3 [0, 1, 2]
      (Keys.mk 0 ((sampleUnique [0, 1, 2]).map u64_from_u64))
      (Keys.mk 0 ((sampleUnique [0, 1, 2]).map string_from_u64)) rfl rfl).2.1,
   (keys_new_pairwise_distinct 3 [0, 1, 2]
      (Keys.mk 0 ((sampleUnique [0, 1, 2]).map u64_from_u64))
      (Keys.mk 0 ((sampleUnique [0, 1, 2]).map string_from_u64)) rfl rfl).2.2.1,
   (keys_new_pairwise_distinct 3 [0, 1, 2]
      (Keys.mk 0 ((sampleUnique [0, 1, 2]).map u64_from_u64))
      (Keys.mk 0 ((sampleUnique [0, 1, 2]).map string_from_u64)) rfl rfl).2.2.2⟩
